import Mathlib

/-!
Verification of the minimal_frost terminal SQL client against its
natural-language specification.

The development shallowly embeds the parts of the source the claims are
about:

* `src/connection.rs` — the query-execution worker (`start_db_worker`):
  driver interactions per query are represented by an oracle value
  (`DriverQuery`), and the worker loop body is translated into a pure
  function from that oracle and the shared current-statement slot to the
  emitted responses and the new slot contents.
* `src/workspace.rs` — `Workspace::run_query`, `Workspace::cancel_query`
  and `Workspace::get_current_query`.
* `src/tile_rowstore.rs` — the tile-paged result store: build, tile file
  serialization, tile decoding, windowed reads and prefetch.
* `src/editor.rs` — the rope-backed editor: edits, undo grouping,
  undo/redo.

Machine integers are modelled as `Nat` with explicit `% 2 ^ w` where the
source truncates (`as u32`) or wraps (`usize` subtraction).
-/

deriving instance DecidableEq for Except

namespace Frost

/-! ## Query execution worker (src/connection.rs) -/

/-- `ResultsContent` (src/results.rs) as far as the worker claims need it:
the variant delivered in `QueryFinished` (`Table` with its headers, or
`Info` with its message).  The tile store payload of `Table` is modelled
separately in the tile-store section. -/
inductive ResContent where
  | table (headers : List String)
  | info (message : String)
  deriving DecidableEq, Repr

/-- `DbWorkerResponse` (src/connection.rs lines 24-30).  The `Instant` and
`Duration` fields carry wall-clock values irrelevant to the claims and are
omitted. -/
inductive DbWorkerResponse where
  | queryStarted (query_idx : Nat) (query_context : String)
  | queryFinished (query_idx : Nat) (result : ResContent)
  | queryError (query_idx : Nat) (message : String)
  deriving DecidableEq, Repr

/-- `DbWorkerRequest` (src/connection.rs lines 17-22). -/
inductive DbWorkerRequest where
  | runQueries (qs : List (String × String))
  | cancel
  | quit
  deriving DecidableEq, Repr

/-- A driver-level call made by the worker; only `SQLCancel` matters to the
claims.  Statement handles (`SQLHSTMT`) are opaque and modelled as `Nat`. -/
inductive DriverCall where
  | sqlCancel (h : Nat)
  deriving DecidableEq, Repr

/-- Outcome of `stmt.exec_direct(&query)` for one query, as the worker
observes it (src/connection.rs lines 109-202): an execution error, `NoData`
with the result of `affected_row_count()`, or `Data` together with the
result of `num_result_cols()` (on success, the per-column outcomes of
`describe_col(i)` for `i = 1..=num_cols`) and the result of
`TileRowStore::from_rows` on the fetched rows. -/
inductive ExecOutcome where
  | execErr (e : String)
  | noData (affected : Except Unit Int)
  | data (cols : Except String (List (Except String String)))
      (store : Except String Unit)
  deriving DecidableEq, Repr

/-- The driver's behaviour on one query of a batch: the result of
`Statement::with_parent(&conn)` and, when allocation succeeds, the
`exec_direct` outcome. -/
structure DriverQuery where
  alloc : Except String Unit
  exec : ExecOutcome
  deriving DecidableEq, Repr

/-- Message selection for the `NoData` arm (src/connection.rs lines
177-187): positive count, zero count, negative count, or
`affected_row_count()` failure. -/
def infoMessage : Except Unit Int → String
  | .ok cnt =>
      if cnt > 0 then
        "Statement affected " ++ toString cnt ++ " row" ++
          (if cnt = 1 then "" else "s")
      else if cnt = 0 then
        "Statement executed successfully (no rows affected)."
      else
        "Statement executed successfully."
  | .error _ => "Statement executed successfully."

/-- The worker's processing of one query of a `RunQueries` batch
(src/connection.rs lines 90-218).  `h` is the native handle of the freshly
allocated statement, `slot` the shared current-statement slot.  Returns the
responses sent and the slot contents afterwards.

Faithful to the source control flow: the error arms of `num_result_cols`
and `TileRowStore::from_rows` `continue` the outer query loop and therefore
skip the slot-clearing block at lines 204-208, while the error arm of
`describe_col` only `continue`s the inner column loop (lines 125-137), so
processing falls through to tile-store creation with the failed column
missing from `col_names`. -/
def processQuery (idx : Nat) (context : String) (h : Nat) (q : DriverQuery)
    (slot : Option Nat) : List DbWorkerResponse × Option Nat :=
  let startEv := DbWorkerResponse.queryStarted idx context
  match q.alloc with
  | .error e =>
      ([startEv, .queryError idx ("Failed to create statement: " ++ e)], slot)
  | .ok _ =>
      let slotRunning : Option Nat := some h
      match q.exec with
      | .execErr e =>
          ([startEv, .queryError idx ("Query execution failed: " ++ e)], none)
      | .noData affected =>
          ([startEv, .queryFinished idx (.info (infoMessage affected))], none)
      | .data colsRes storeRes =>
          match colsRes with
          | .error e =>
              ([startEv, .queryError idx ("Failed to get column count: " ++ e)],
                slotRunning)
          | .ok colResults =>
              let colErrors := colResults.filterMap fun r =>
                match r with
                | .error e => some (DbWorkerResponse.queryError idx
                    ("Failed to get column name: " ++ e))
                | .ok _ => none
              let colNames := colResults.filterMap fun r =>
                match r with
                | .ok n => some n
                | .error _ => none
              match storeRes with
              | .error e =>
                  (startEv :: colErrors ++
                    [.queryError idx ("Failed to create tile store: " ++ e)],
                    slotRunning)
              | .ok _ =>
                  (startEv :: colErrors ++
                    [.queryFinished idx (.table colNames)], none)

/-- Helper for `processBatch`: fold of `processQuery` over the remaining
queries with their running index, threading the slot. -/
def processBatchAux : Nat → List (String × Nat × DriverQuery) → Option Nat →
    List DbWorkerResponse × Option Nat
  | _, [], slot => ([], slot)
  | idx, (ctx, h, q) :: rest, slot =>
      let step := processQuery idx ctx h q slot
      let tail := processBatchAux (idx + 1) rest step.2
      (step.1 ++ tail.1, tail.2)

/-- The `RunQueries` arm of the worker loop (src/connection.rs lines
89-218): queries are processed with `enumerate` in index order, threading
the shared current-statement slot.  Each batch element carries its
context string, the native handle the driver assigns to its statement, and
the driver's behaviour on it. -/
def processBatch (batch : List (String × Nat × DriverQuery))
    (slot : Option Nat) : List DbWorkerResponse × Option Nat :=
  processBatchAux 0 batch slot

/-- The `Cancel` arm of the worker loop (src/connection.rs lines 220-228):
lock the shared slot and, if a handle is present, call `SQLCancel` on it;
the slot contents are not modified.  Returns the slot afterwards and the
driver calls performed. -/
def workerHandleCancel (slot : Option Nat) : Option Nat × List DriverCall :=
  (slot,
    match slot with
    | some h => [DriverCall.sqlCancel h]
    | none => [])

/-! ## Workspace (src/workspace.rs) -/

/-- The slice of the editor that `Workspace::get_current_query`
(src/workspace.rs lines 352-363) reads: the rope text and the selection as
exposed by `has_selection()` / `get_selection_range()` (byte range). -/
structure EditorView where
  ropeText : String
  hasSel : Bool
  selRange : Option (Nat × Nat)
  deriving DecidableEq, Repr

/-- The fields of `Workspace` that `run_query` / `cancel_query` read. -/
structure WorkspaceView where
  running : Bool
  connected : Bool
  editor : EditorView
  deriving DecidableEq, Repr

/-- `Workspace::get_current_query` (src/workspace.rs lines 352-363):
selected byte slice if a selection exists, combined with the range
accessor; otherwise the whole rope.  `String.extract` at byte positions
models `rope.byte_slice(start..end).to_string()`. -/
def getCurrentQuery (w : WorkspaceView) : String :=
  if w.editor.hasSel then
    match w.editor.selRange with
    | some (s, e) => w.editor.ropeText.extract ⟨s⟩ ⟨e⟩
    | none => ""
  else
    w.editor.ropeText

/-- `Workspace::run_query` (src/workspace.rs lines 330-344): nothing is
sent while running or not connected or when the current query text is
empty; otherwise exactly one `RunQueries` with a single query wrapped as
`EXECUTE IMMEDIATE $$\n<text>\n$$` and an empty context. -/
def runQuery (w : WorkspaceView) : Option DbWorkerRequest :=
  if w.running || !w.connected then none
  else
    let query := getCurrentQuery w
    if query.isEmpty then none
    else
      some (.runQueries [("EXECUTE IMMEDIATE $$\n" ++ query ++ "\n$$", "")])

/-- `Workspace::cancel_query` (src/workspace.rs lines 346-350): while
running, send the `Cancel` message; it performs no driver call itself. -/
def cancelQuery (running : Bool) : Option DbWorkerRequest :=
  if running then some .cancel else none

/-! ## Theorems for the worker and workspace claims -/

/-- Whether a response is the terminal (`QueryFinished` or `QueryError`)
response for query index `idx`. -/
def isTerminalFor (idx : Nat) : DbWorkerResponse → Bool
  | .queryFinished i _ => i == idx
  | .queryError i _ => i == idx
  | .queryStarted _ _ => false

/-- C1: a query whose `describe_col` fails for one column while the rest of
the pipeline succeeds emits BOTH a `QueryError` and a `QueryFinished` — two
terminal responses for the same index — because the `continue` in the
describe_col error arm (src/connection.rs line 134) continues the inner
column loop instead of the outer query loop.  This contradicts the claimed
exactly-one `QueryFinished` xor `QueryError` per query. -/
theorem c1_describe_col_emits_error_and_finished :
    (processBatch
        [("", 7, ⟨.ok (), .data (.ok [.error "boom", .ok "B"]) (.ok ())⟩)]
        none).1 =
      [.queryStarted 0 "", .queryError 0 "Failed to get column name: boom",
        .queryFinished 0 (.table ["B"])] ∧
    ((processBatch
        [("", 7, ⟨.ok (), .data (.ok [.error "boom", .ok "B"]) (.ok ())⟩)]
        none).1.filter (isTerminalFor 0)).length = 2 :=
  ⟨rfl, rfl⟩

/-- C2: a query that fails in `num_result_cols` leaves the shared
current-statement slot holding the stale handle: the `continue` at
src/connection.rs line 120 skips the slot-clearing block at lines 204-208.
This contradicts the claimed emptiness of the slot after every query. -/
theorem c2_slot_not_cleared_on_colcount_error :
    processBatch [("", 7, ⟨.ok (), .data (.error "boom") (.ok ())⟩)] none =
      ([.queryStarted 0 "", .queryError 0 "Failed to get column count: boom"],
        some 7) ∧
    (processBatch [("", 7, ⟨.ok (), .data (.error "boom") (.ok ())⟩)]
        none).2 ≠ none :=
  ⟨rfl, by decide⟩

/-- C3 counterexample: with a handle in the shared slot, the worker's
handling of a `Cancel` request performs a driver call (`SQLCancel` on the
slotted handle), refuting the claim that handling the Cancel message
performs no driver call. -/
theorem c3_worker_cancel_calls_driver :
    (workerHandleCancel (some 7)).2 = [DriverCall.sqlCancel 7] ∧
    (workerHandleCancel (some 7)).2 ≠ [] :=
  ⟨rfl, by decide⟩

/-- C3 amended: the worker itself performs the effective cancellation: on
reading `Cancel` it leaves all worker state (the slot) unchanged and calls
the driver-level `SQLCancel` on the slotted handle exactly when one is
present (a no-op when the slot is empty); the UI thread never calls the
driver directly — `Workspace::cancel_query` only sends the `Cancel`
message, and only while a query is running. -/
theorem c3_amended_cancel_is_worker_side :
    (∀ s : Option Nat, (workerHandleCancel s).1 = s) ∧
    (workerHandleCancel none).2 = [] ∧
    (∀ h : Nat, (workerHandleCancel (some h)).2 = [DriverCall.sqlCancel h]) ∧
    (∀ r : Bool, cancelQuery r = if r then some DbWorkerRequest.cancel
      else none) :=
  ⟨fun _ => rfl, rfl, fun _ => rfl, fun _ => rfl⟩

/-- C9: `run_query` sends nothing while running, while not connected, or
when the current query text is empty; otherwise it sends exactly one
`RunQueries` with a single query wrapping the current text (selection if
one exists, else the whole buffer) as `EXECUTE IMMEDIATE $$\n<text>\n$$` —
never the raw text itself. -/
theorem c9_run_query_behavior (w : WorkspaceView) :
    ((w.running = true ∨ w.connected = false ∨ getCurrentQuery w = "") →
        runQuery w = none) ∧
    (w.running = false → w.connected = true → getCurrentQuery w ≠ "" →
        runQuery w = some (.runQueries
          [("EXECUTE IMMEDIATE $$\n" ++ getCurrentQuery w ++ "\n$$", "")])) ∧
    (w.editor.hasSel = false → getCurrentQuery w = w.editor.ropeText) ∧
    (∀ s e : Nat, w.editor.hasSel = true → w.editor.selRange = some (s, e) →
        getCurrentQuery w = w.editor.ropeText.extract ⟨s⟩ ⟨e⟩) ∧
    "EXECUTE IMMEDIATE $$\n" ++ getCurrentQuery w ++ "\n$$" ≠
      getCurrentQuery w := by
  refine ⟨?_, ?_, ?_, ?_, ?_⟩
  · rintro (h | h | h) <;>
      simp [runQuery, h, String.isEmpty_iff]
  · intro h1 h2 h3
    simp [runQuery, h1, h2, String.isEmpty_iff, h3]
  · intro h
    simp [getCurrentQuery, h]
  · intro s e h1 h2
    simp [getCurrentQuery, h1, h2]
  · intro heq
    have hlen := congrArg String.length heq
    simp [String.length_append] at hlen
    have h1 : ("EXECUTE IMMEDIATE $$\n").length = 21 := rfl
    have h2 : ("\n$$").length = 3 := rfl
    omega

/-- Witness for C9 at a concrete workspace: not running, connected, no
selection, buffer `SELECT 1`. -/
theorem c9_run_query_behavior_witness :
    runQuery ⟨false, true, ⟨"SELECT 1", false, none⟩⟩ =
      some (.runQueries [("EXECUTE IMMEDIATE $$\nSELECT 1\n$$", "")]) := by
  have h := (c9_run_query_behavior ⟨false, true, ⟨"SELECT 1", false, none⟩⟩).2.1
    rfl rfl (by decide)
  exact h

/-! ## Tile-paged result store (src/tile_rowstore.rs)

Cells are modelled by their UTF-8 byte sequences (`List Nat`): the source
stores `String` cells, writes `col.as_bytes()` to the tile file, and reads
them back with `String::from_utf8_lossy`, which is the identity on the
valid UTF-8 produced by `as_bytes`.  The temp file is a byte list;
`u32`/`u64` fields are written little-endian with explicit truncation
(`% 2 ^ 32`) where the source casts. -/

/-- Number of rows per tile (src/tile_rowstore.rs line 14). -/
def TILE_SIZE : Nat := 1000

/-- One cell value, as its byte sequence. -/
abbrev Cell := List Nat

/-- One result row. -/
abbrev Row := List Cell

/-- One tile: a contiguous run of rows. -/
abbrev Tile := List Row

/-- Little-endian serialization of `n as u32`. -/
def u32le (n : Nat) : List Nat :=
  [n % 256, n / 256 % 256, n / 65536 % 256, n / 16777216 % 256]

/-- Little-endian serialization of `n as u64`. -/
def u64le (n : Nat) : List Nat :=
  [n % 256, n / 256 % 256, n / 65536 % 256, n / 16777216 % 256,
    n / 2 ^ 32 % 256, n / 2 ^ 40 % 256, n / 2 ^ 48 % 256, n / 2 ^ 56 % 256]

/-- One cell in the tile body: `u32 len` then `len` raw bytes
(src/tile_rowstore.rs lines 152-157). -/
def encodeCell (c : Cell) : List Nat := u32le c.length ++ c

/-- One row in the tile body: its cells concatenated. -/
def encodeRow (r : Row) : List Nat := (r.map encodeCell).flatten

/-- `TileRowStore::write_tile` (src/tile_rowstore.rs lines 149-160):
`u32 row_count`, `u32 col_count` (the width of the first row, `0` for an
empty tile), then every cell of every row. -/
def encodeTile (rows : Tile) : List Nat :=
  u32le rows.length ++
    u32le (match rows with | [] => 0 | r :: _ => r.length) ++
    (rows.map encodeRow).flatten

/-- The tile-buffering loop of `from_rows` (src/tile_rowstore.rs lines
79-99): rows accumulate in `buf_tile`; each time it reaches `TILE_SIZE`
rows it is flushed as a tile, and a non-empty final partial buffer is
flushed after the stream ends. -/
def buildTiles (rows : List Row) (buf : Tile) : List Tile :=
  match rows with
  | [] => if buf.isEmpty then [] else [buf]
  | r :: rest =>
      let buf2 := buf ++ [r]
      if buf2.length = TILE_SIZE then buf2 :: buildTiles rest []
      else buildTiles rest buf2

/-- Byte offsets at which consecutive tiles are written, starting from
file position `pos` (the recorded `stream_position` values,
src/tile_rowstore.rs lines 86 and 95). -/
def tileOffsetsAux (tiles : List Tile) (pos : Nat) : List Nat :=
  match tiles with
  | [] => []
  | t :: rest => pos :: tileOffsetsAux rest (pos + (encodeTile t).length)

/-- Magic header bytes `b"SNTR"` (src/tile_rowstore.rs line 17). -/
def MAGIC : List Nat := [83, 78, 84, 82]

/-- The temp-file contents after `from_rows` finishes: magic, `TILE_SIZE`,
`ncols`, then the patched `nrows` and `tile_count`, the tile bodies, the
`u64` offset table and the `u32` row-count table (src/tile_rowstore.rs
lines 66-114; file layout per the spec table in section 6).  Tile bodies
start at byte offset 20. -/
def fileBytes (ncols nrows : Nat) (tiles : List Tile) : List Nat :=
  MAGIC ++ u32le TILE_SIZE ++ u32le ncols ++ u32le nrows ++
    u32le tiles.length ++
    (tiles.map encodeTile).flatten ++
    ((tileOffsetsAux tiles 20).map u64le).flatten ++
    (tiles.map fun t => u32le t.length).flatten

/-- `TileRowStore` (src/tile_rowstore.rs lines 20-38).  The LRU cache is an
association list in most-recently-used-first order with capacity 6 (line
133); entries in the `lru` crate are shared `Arc`s, modelled by plain
values since tiles are immutable. -/
structure TileRowStore where
  file : List Nat
  tile_offsets : List Nat
  tile_row_counts : List Nat
  ncols : Nat
  nrows : Nat
  cache : List (Nat × Tile)
  first_tile : Option Tile
  last_tile : Option Tile
  deriving DecidableEq, Repr

/-- LRU capacity (src/tile_rowstore.rs line 133). -/
def CACHE_CAP : Nat := 6

/-- `LruCache::get`: on a hit the entry is promoted to
most-recently-used and returned. -/
def lruGet (cache : List (Nat × Tile)) (k : Nat) :
    Option Tile × List (Nat × Tile) :=
  match cache.find? (fun e => e.1 == k) with
  | some e => (some e.2, e :: cache.filter (fun e2 => e2.1 != k))
  | none => (none, cache)

/-- `LruCache::put`: insert as most-recently-used, replacing any entry
with the same key, and evict the least-recently-used entry when the
capacity is exceeded. -/
def lruPut (cache : List (Nat × Tile)) (k : Nat) (v : Tile) :
    List (Nat × Tile) :=
  ((k, v) :: cache.filter (fun e => e.1 != k)).take CACHE_CAP

/-- Read a little-endian `u32` from the front of a byte stream
(`read_u32::<LittleEndian>`); fails when fewer than 4 bytes remain. -/
def readU32 : List Nat → Option (Nat × List Nat)
  | b0 :: b1 :: b2 :: b3 :: rest =>
      some (b0 + 256 * b1 + 65536 * b2 + 16777216 * b3, rest)
  | _ => none

/-- Read one cell: `u32 len` then `len` raw bytes (`read_exact` fails when
fewer than `len` bytes remain). -/
def readCell (bytes : List Nat) : Option (Cell × List Nat) :=
  match readU32 bytes with
  | some (len, rest) =>
      if len ≤ rest.length then some (rest.take len, rest.drop len)
      else none
  | none => none

/-- Read `n` consecutive cells (the inner column loop of `load_tile_arc`,
src/tile_rowstore.rs lines 173-178). -/
def readCells : Nat → List Nat → Option (List Cell × List Nat)
  | 0, bytes => some ([], bytes)
  | n + 1, bytes =>
      match readCell bytes with
      | some (c, rest) =>
          match readCells n rest with
          | some (cs, rest2) => some (c :: cs, rest2)
          | none => none
      | none => none

/-- Read `n` rows of `cols` cells each (the row loop of `load_tile_arc`,
src/tile_rowstore.rs lines 171-180). -/
def readRows : Nat → Nat → List Nat → Option (List Row × List Nat)
  | 0, _, bytes => some ([], bytes)
  | n + 1, cols, bytes =>
      match readCells cols bytes with
      | some (r, rest) =>
          match readRows n cols rest with
          | some (rs, rest2) => some (r :: rs, rest2)
          | none => none
      | none => none

/-- Decode one tile from the file at a byte offset: seek, then `u32
row_count`, `u32 col_count`, then `row_count × col_count` cells
(src/tile_rowstore.rs lines 166-181). -/
def decodeTileAt (file : List Nat) (offset : Nat) : Option Tile :=
  match readU32 (file.drop offset) with
  | some (rowCount, r1) =>
      match readU32 r1 with
      | some (colCount, r2) =>
          match readRows rowCount colCount r2 with
          | some (rows, _) => some rows
          | none => none
      | none => none
  | none => none

/-- `TileRowStore::load_tile_arc` (src/tile_rowstore.rs lines 163-182):
look up the tile's offset (failing when `idx` is out of range) and decode
the tile there. -/
def loadTile (s : TileRowStore) (idx : Nat) : Option Tile :=
  match s.tile_offsets.get? idx with
  | some off => decodeTileAt s.file off
  | none => none

/-- `TileRowStore::from_rows` (src/tile_rowstore.rs lines 57-145): buffer
the stream into tiles, write header, tile bodies and index tables, patch
`nrows` and `tile_count`, then eagerly load the first and last tiles.
`tile_row_counts` entries are `u32` (`buf_tile.len() as u32`). -/
def TileRowStore.from_rows (headers : List String) (rows : List Row) :
    TileRowStore :=
  let tiles := buildTiles rows []
  let store0 : TileRowStore :=
    { file := fileBytes headers.length rows.length tiles
      tile_offsets := tileOffsetsAux tiles 20
      tile_row_counts := tiles.map fun t => t.length % 2 ^ 32
      ncols := headers.length
      nrows := rows.length
      cache := []
      first_tile := none
      last_tile := none }
  if store0.tile_offsets.isEmpty then store0
  else
    { store0 with
        first_tile := loadTile store0 0
        last_tile := loadTile store0 (store0.tile_offsets.length - 1) }

/-- Tile resolution inside `get_rows` (src/tile_rowstore.rs lines
196-210): index 0 resolves through the pinned first tile (loading on a
cold pin without caching), the last index through the pinned last tile,
and any other index through the LRU — a hit promotes the entry, a miss
loads from disk and inserts.  Returns the tile and the store with its
updated cache. -/
def resolveTile (s : TileRowStore) (tileIdx : Nat) :
    Option Tile × TileRowStore :=
  if tileIdx = 0 then
    (match s.first_tile with
      | some t => some t
      | none => loadTile s 0, s)
  else if tileIdx = s.tile_offsets.length - 1 then
    (match s.last_tile with
      | some t => some t
      | none => loadTile s tileIdx, s)
  else
    match lruGet s.cache tileIdx with
    | (some t, cache2) => (some t, { s with cache := cache2 })
    | (none, _) =>
        match loadTile s tileIdx with
        | some t => (some t, { s with cache := lruPut s.cache tileIdx t })
        | none => (none, s)

/-- The `while curr < end` loop of `get_rows` (src/tile_rowstore.rs lines
193-216), with fuel standing in for the loop's (unproved-in-the-source)
termination: a run that fails to make progress exhausts its fuel and
returns `none`, modelling the divergence the source would exhibit. -/
def getRowsLoop : Nat → Nat → Nat → TileRowStore → List Row →
    Option (List Row × TileRowStore)
  | 0, _, _, _, _ => none
  | fuel + 1, curr, stop, s, acc =>
      if curr < stop then
        match resolveTile s (curr / TILE_SIZE) with
        | (some tile, s2) =>
            let inTile := curr % TILE_SIZE
            let endInTile := min tile.length (inTile + (stop - curr))
            getRowsLoop fuel (curr + (endInTile - inTile)) stop s2
              (acc ++ (tile.drop inTile).take (endInTile - inTile))
        | (none, _) => none
      else some (acc, s)

/-- `TileRowStore::get_rows` (src/tile_rowstore.rs lines 186-218):
empty result when `start ≥ nrows` or `count == 0`; otherwise walk the
tiles from `start / TILE_SIZE`, copying sub-ranges, until
`end = min(nrows, start + count)`. -/
def TileRowStore.get_rows (s : TileRowStore) (start count : Nat) :
    Option (List Row × TileRowStore) :=
  if start ≥ s.nrows || count = 0 then some ([], s)
  else
    let stop := min s.nrows (start + count)
    getRowsLoop (stop - start + 1) start stop s []

/-- Wrap-around modulus of `usize` arithmetic. -/
def USIZE_MOD : Nat := 2 ^ 64

/-- `TileRowStore::prefetch_for_view` (src/tile_rowstore.rs lines 44-55):
compute the tile range `[view_row / TILE_SIZE - 1, (view_row + max_rows -
1) / TILE_SIZE + 1]` (saturating below, clamped to `tile_count - 1`
above; the `- 1` inside the dividend wraps like the source's release-mode
`usize` subtraction) and call `load_tile_arc` on each index, discarding
the result — the store, and in particular its LRU cache, pinned tiles and
index tables, is returned unchanged.  The second component lists the tile
indices loaded. -/
def TileRowStore.prefetch_for_view (s : TileRowStore)
    (view_row max_rows : Nat) : TileRowStore × List Nat :=
  let tile_count := s.tile_offsets.length
  if tile_count = 0 then (s, [])
  else
    let start_tile := view_row / TILE_SIZE
    let end_tile :=
      ((view_row + max_rows + (USIZE_MOD - 1)) % USIZE_MOD) / TILE_SIZE
    let prefetch_start := start_tile - 1
    let prefetch_end := min (end_tile + 1) (tile_count - 1)
    (s, List.range' prefetch_start (prefetch_end + 1 - prefetch_start))

/-! ## Serialization roundtrip lemmas -/

theorem u32le_length (n : Nat) : (u32le n).length = 4 := rfl

theorem readU32_u32le (n : Nat) (rest : List Nat) :
    readU32 (u32le n ++ rest) = some (n % 2 ^ 32, rest) := by
  have h32 : (2 : Nat) ^ 32 = 4294967296 := by norm_num
  simp only [u32le, List.cons_append, List.nil_append, readU32, h32,
    Option.some.injEq, Prod.mk.injEq]
  exact ⟨by omega, trivial⟩

theorem readCell_encodeCell (c : Cell) (rest : List Nat)
    (hc : c.length < 2 ^ 32) :
    readCell (encodeCell c ++ rest) = some (c, rest) := by
  have hle : c.length ≤ (c ++ rest).length := by
    simp [List.length_append]
  simp only [readCell, encodeCell, List.append_assoc, readU32_u32le,
    Nat.mod_eq_of_lt hc, if_pos hle, List.take_left, List.drop_left]

theorem readCells_encodeRow (r : Row) (rest : List Nat)
    (hc : ∀ c ∈ r, c.length < 2 ^ 32) :
    readCells r.length (encodeRow r ++ rest) = some (r, rest) := by
  induction r generalizing rest with
  | nil => rfl
  | cons c cs ih =>
      have henc : encodeRow (c :: cs) ++ rest =
          encodeCell c ++ (encodeRow cs ++ rest) := by
        simp [encodeRow]
      simp only [List.length_cons, readCells, henc,
        readCell_encodeCell c _ (hc c (by simp)),
        ih _ (fun d hd => hc d (by simp [hd]))]

theorem readRows_encode (rows : Tile) (w : Nat) (rest : List Nat)
    (hw : ∀ r ∈ rows, r.length = w)
    (hc : ∀ r ∈ rows, ∀ c ∈ r, c.length < 2 ^ 32) :
    readRows rows.length w ((rows.map encodeRow).flatten ++ rest) =
      some (rows, rest) := by
  induction rows generalizing rest with
  | nil => rfl
  | cons r rs ih =>
      have hr : r.length = w := hw r (by simp)
      have hcells : readCells w (encodeRow r ++
          ((rs.map encodeRow).flatten ++ rest)) =
          some (r, (rs.map encodeRow).flatten ++ rest) := by
        rw [← hr]
        exact readCells_encodeRow r _ (hc r (by simp))
      simp only [List.length_cons, readRows, List.map_cons,
        List.flatten_cons, List.append_assoc, hcells,
        ih rest (fun x hx => hw x (by simp [hx]))
          (fun x hx => hc x (by simp [hx]))]

set_option maxRecDepth 4000 in
/-- Decoding a tile body placed at `offset` in a file recovers the tile,
for tiles of uniform row width `w` whose dimensions fit in `u32`. -/
theorem decodeTileAt_encodeTile (file : List Nat) (offset : Nat) (t : Tile)
    (rest : List Nat) (w : Nat)
    (hdrop : file.drop offset = encodeTile t ++ rest)
    (hlen : t.length < 2 ^ 32)
    (hw : ∀ r ∈ t, r.length = w)
    (hwlt : w < 2 ^ 32)
    (hc : ∀ r ∈ t, ∀ c ∈ r, c.length < 2 ^ 32) :
    decodeTileAt file offset = some t := by
  rw [decodeTileAt, hdrop]
  cases t with
  | nil =>
      have h1 : encodeTile ([] : Tile) ++ rest = u32le 0 ++ (u32le 0 ++ rest) := by
        simp [encodeTile]
      rw [h1]
      rw [readU32_u32le]
      rw [show (0 : Nat) % 2 ^ 32 = 0 from rfl]
      simp only [readU32_u32le, Nat.zero_mod, readRows]
  | cons r rs =>
      have hr : r.length = w := hw r (by simp)
      have hbody : readRows (r :: rs).length r.length
          (((r :: rs).map encodeRow).flatten ++ rest) =
          some (r :: rs, rest) := by
        rw [hr]
        exact readRows_encode (r :: rs) w rest hw hc
      have hrlt : r.length < 2 ^ 32 := by rw [hr]; exact hwlt
      simp only [encodeTile, List.append_assoc, readU32_u32le,
        Nat.mod_eq_of_lt hlen, Nat.mod_eq_of_lt hrlt, hbody]

/-! ## Tile-chunking lemmas for `buildTiles` -/

theorem TILE_SIZE_pos : 0 < TILE_SIZE := by decide

theorem buildTiles_flatten (rows : List Row) (buf : Tile) :
    (buildTiles rows buf).flatten = buf ++ rows := by
  induction rows generalizing buf with
  | nil =>
      rw [buildTiles]
      cases buf <;> simp
  | cons r rest ih =>
      rw [buildTiles]
      by_cases hfull : (buf ++ [r]).length = TILE_SIZE
      · simp only [hfull, if_true, List.flatten_cons, ih]
        simp
      · simp only [hfull, if_false, ih]
        simp

theorem buildTiles_mem (rows : List Row) (buf : Tile)
    (hb : buf.length < TILE_SIZE) :
    ∀ t ∈ buildTiles rows buf, 0 < t.length ∧ t.length ≤ TILE_SIZE := by
  induction rows generalizing buf with
  | nil =>
      intro t ht
      rw [buildTiles] at ht
      cases buf with
      | nil => simp at ht
      | cons x xs =>
          simp at ht
          subst ht
          exact ⟨by simp, le_of_lt hb⟩
  | cons r rest ih =>
      intro t ht
      rw [buildTiles] at ht
      by_cases hfull : (buf ++ [r]).length = TILE_SIZE
      · simp only [hfull, if_true, List.mem_cons] at ht
        rcases ht with ht | ht
        · subst ht
          exact ⟨by rw [hfull]; exact TILE_SIZE_pos, le_of_eq hfull⟩
        · exact ih [] TILE_SIZE_pos t ht
      · simp only [hfull, if_false] at ht
        have hlt : (buf ++ [r]).length < TILE_SIZE := by
          have : (buf ++ [r]).length = buf.length + 1 := by simp
          omega
        exact ih (buf ++ [r]) hlt t ht

theorem buildTiles_full_init (rows : List Row) (buf : Tile)
    (hb : buf.length < TILE_SIZE) :
    ∀ i t, i + 1 < (buildTiles rows buf).length →
      (buildTiles rows buf).get? i = some t → t.length = TILE_SIZE := by
  induction rows generalizing buf with
  | nil =>
      intro i t hi _
      rw [buildTiles] at hi
      cases buf with
      | nil => simp at hi
      | cons x xs => simp at hi
  | cons r rest ih =>
      intro i t hi hget
      rw [buildTiles] at hi hget
      by_cases hfull : (buf ++ [r]).length = TILE_SIZE
      · simp only [hfull, if_true] at hi hget
        cases i with
        | zero =>
            simp at hget
            rw [← hget]
            exact hfull
        | succ j =>
            simp only [List.length_cons] at hi
            simp only [List.get?_cons_succ] at hget
            exact ih [] TILE_SIZE_pos j t (by omega) hget
      · simp only [hfull, if_false] at hi hget
        have hlt : (buf ++ [r]).length < TILE_SIZE := by
          have : (buf ++ [r]).length = buf.length + 1 := by simp
          omega
        exact ih (buf ++ [r]) hlt i t hi hget

theorem buildTiles_length (rows : List Row) (buf : Tile)
    (hb : buf.length < TILE_SIZE) :
    (buildTiles rows buf).length =
      (buf.length + rows.length + (TILE_SIZE - 1)) / TILE_SIZE := by
  induction rows generalizing buf with
  | nil =>
      rw [buildTiles]
      cases buf with
      | nil => norm_num [TILE_SIZE]
      | cons x xs =>
          rw [if_neg (by simp)]
          simp only [List.length_cons, List.length_nil]
          have hlen : (x :: xs).length = xs.length + 1 := by simp
          simp only [TILE_SIZE] at hb ⊢
          omega
  | cons r rest ih =>
      rw [buildTiles]
      have hb2 : (buf ++ [r]).length = buf.length + 1 := by simp
      by_cases hfull : (buf ++ [r]).length = TILE_SIZE
      · rw [if_pos hfull, List.length_cons, ih [] TILE_SIZE_pos]
        simp only [List.length_nil, List.length_cons]
        simp only [TILE_SIZE] at hfull hb2 ⊢
        omega
      · have hlt : (buf ++ [r]).length < TILE_SIZE := by omega
        rw [if_neg hfull, ih (buf ++ [r]) hlt, hb2]
        simp only [List.length_cons]
        congr 1
        omega

/-! ## Offset table and file-layout lemmas -/

theorem get?_lt_length {α : Type} (l : List α) (i : Nat) (x : α)
    (h : l.get? i = some x) : i < l.length := by
  rcases Nat.lt_or_ge i l.length with h1 | h1
  · exact h1
  · rw [List.get?_eq_none.mpr h1] at h
    cases h

theorem tileOffsetsAux_length (tiles : List Tile) (pos : Nat) :
    (tileOffsetsAux tiles pos).length = tiles.length := by
  induction tiles generalizing pos with
  | nil => rfl
  | cons t rest ih => simp [tileOffsetsAux, ih]

theorem tileOffsetsAux_get? (tiles : List Tile) (pos i : Nat)
    (h : i < tiles.length) :
    (tileOffsetsAux tiles pos).get? i =
      some (pos + ((tiles.take i).map encodeTile).flatten.length) := by
  induction tiles generalizing pos i with
  | nil => simp at h
  | cons t rest ih =>
      cases i with
      | zero => simp [tileOffsetsAux]
      | succ j =>
          rw [tileOffsetsAux]
          simp only [List.get?_cons_succ]
          rw [ih (pos + (encodeTile t).length) j
            (by simp at h; omega)]
          congr 1
          simp [List.length_append]
          omega

theorem fileBytes_drop (ncols nrows : Nat) (tiles : List Tile) (i : Nat)
    (h : i < tiles.length) :
    ∃ rest, (fileBytes ncols nrows tiles).drop
        (20 + ((tiles.take i).map encodeTile).flatten.length) =
      encodeTile (tiles.get ⟨i, h⟩) ++ rest := by
  refine ⟨((tiles.drop (i + 1)).map encodeTile).flatten ++
    (((tileOffsetsAux tiles 20).map u64le).flatten ++
      (tiles.map fun t => u32le t.length).flatten), ?_⟩
  have hdecomp : tiles.map encodeTile =
      (tiles.take i).map encodeTile ++
        (encodeTile (tiles.get ⟨i, h⟩) ::
          (tiles.drop (i + 1)).map encodeTile) := by
    conv_lhs => rw [← List.take_append_drop i tiles]
    rw [List.map_append]
    congr 1
    rw [List.drop_eq_getElem_cons h, List.map_cons]
    rfl
  have hfile : fileBytes ncols nrows tiles =
      (MAGIC ++ u32le TILE_SIZE ++ u32le ncols ++ u32le nrows ++
        u32le tiles.length) ++
      (((tiles.take i).map encodeTile).flatten ++
        (encodeTile (tiles.get ⟨i, h⟩) ++
          (((tiles.drop (i + 1)).map encodeTile).flatten ++
            (((tileOffsetsAux tiles 20).map u64le).flatten ++
              (tiles.map fun t => u32le t.length).flatten)))) := by
    rw [fileBytes]
    conv_lhs => rw [hdecomp]
    simp [List.append_assoc, List.flatten_append]
  rw [hfile]
  have h20 : (MAGIC ++ u32le TILE_SIZE ++ u32le ncols ++ u32le nrows ++
      u32le tiles.length).length = 20 := rfl
  rw [show 20 + ((tiles.take i).map encodeTile).flatten.length =
      (MAGIC ++ u32le TILE_SIZE ++ u32le ncols ++ u32le nrows ++
        u32le tiles.length).length +
        ((tiles.take i).map encodeTile).flatten.length from by rw [h20]]
  rw [List.drop_append, List.drop_left]

theorem from_rows_file (headers : List String) (rows : List Row) :
    (TileRowStore.from_rows headers rows).file =
      fileBytes headers.length rows.length (buildTiles rows []) := by
  simp only [TileRowStore.from_rows]
  split <;> rfl

theorem from_rows_tile_offsets (headers : List String) (rows : List Row) :
    (TileRowStore.from_rows headers rows).tile_offsets =
      tileOffsetsAux (buildTiles rows []) 20 := by
  simp only [TileRowStore.from_rows]
  split <;> rfl

theorem from_rows_tile_row_counts (headers : List String)
    (rows : List Row) :
    (TileRowStore.from_rows headers rows).tile_row_counts =
      (buildTiles rows []).map fun t => t.length % 2 ^ 32 := by
  simp only [TileRowStore.from_rows]
  split <;> rfl

theorem from_rows_ncols (headers : List String) (rows : List Row) :
    (TileRowStore.from_rows headers rows).ncols = headers.length := by
  simp only [TileRowStore.from_rows]
  split <;> rfl

theorem from_rows_nrows (headers : List String) (rows : List Row) :
    (TileRowStore.from_rows headers rows).nrows = rows.length := by
  simp only [TileRowStore.from_rows]
  split <;> rfl

theorem from_rows_cache (headers : List String) (rows : List Row) :
    (TileRowStore.from_rows headers rows).cache = [] := by
  simp only [TileRowStore.from_rows]
  split <;> rfl

/-- Every tile of a `from_rows` store loads (decodes from the file at its
recorded offset) back to itself, for uniform-width streams with `u32`-sized
dimensions. -/
theorem loadTile_from_rows (headers : List String) (rows : List Row)
    (w : Nat) (hw : ∀ r ∈ rows, r.length = w) (hwlt : w < 2 ^ 32)
    (hc : ∀ r ∈ rows, ∀ c ∈ r, c.length < 2 ^ 32) (i : Nat)
    (h : i < (buildTiles rows []).length) :
    loadTile (TileRowStore.from_rows headers rows) i =
      some ((buildTiles rows []).get ⟨i, h⟩) := by
  have hmem : (buildTiles rows []).get ⟨i, h⟩ ∈ buildTiles rows [] :=
    List.get_mem _ i h
  have hrow : ∀ r ∈ (buildTiles rows []).get ⟨i, h⟩, r ∈ rows := by
    intro r hr
    have : r ∈ (buildTiles rows []).flatten :=
      List.mem_flatten.mpr ⟨_, hmem, hr⟩
    rwa [buildTiles_flatten, List.nil_append] at this
  have hlen : ((buildTiles rows []).get ⟨i, h⟩).length < 2 ^ 32 := by
    have h2 := (buildTiles_mem rows [] TILE_SIZE_pos _ hmem).2
    have : TILE_SIZE < 2 ^ 32 := by norm_num [TILE_SIZE]
    omega
  obtain ⟨rest, hdrop⟩ :=
    fileBytes_drop headers.length rows.length (buildTiles rows []) i h
  rw [loadTile, from_rows_tile_offsets, from_rows_file,
    tileOffsetsAux_get? (buildTiles rows []) 20 i h]
  exact decodeTileAt_encodeTile _ _ _ rest w hdrop hlen
    (fun r hr => hw r (hrow r hr)) hwlt
    (fun r hr => hc r (hrow r hr))

/-- C6: for a store built from a uniform-width stream, every tile row
count except possibly the last equals `TILE_SIZE`, the row counts sum to
`nrows`, and the tile serialized at `tile_offsets[i]` decodes to exactly
`tile_row_counts[i]` rows of `ncols` columns each. -/
theorem c6_tile_invariants (headers : List String) (rows : List Row)
    (hw : ∀ r ∈ rows, r.length = headers.length)
    (hncols : headers.length < 2 ^ 32)
    (hc : ∀ r ∈ rows, ∀ c ∈ r, c.length < 2 ^ 32) :
    (∀ i t,
        i + 1 < (TileRowStore.from_rows headers rows).tile_row_counts.length →
        (TileRowStore.from_rows headers rows).tile_row_counts.get? i =
          some t →
        t = TILE_SIZE) ∧
    (TileRowStore.from_rows headers rows).tile_row_counts.sum =
      (TileRowStore.from_rows headers rows).nrows ∧
    (∀ i off,
        (TileRowStore.from_rows headers rows).tile_offsets.get? i =
          some off →
        ∃ t, decodeTileAt (TileRowStore.from_rows headers rows).file off =
            some t ∧
          (TileRowStore.from_rows headers rows).tile_row_counts.get? i =
            some t.length ∧
          ∀ r ∈ t, r.length = (TileRowStore.from_rows headers rows).ncols) := by
  have hmod : ∀ t ∈ buildTiles rows [], t.length % 2 ^ 32 = t.length := by
    intro t ht
    have h2 := (buildTiles_mem rows [] TILE_SIZE_pos t ht).2
    have : TILE_SIZE < 2 ^ 32 := by norm_num [TILE_SIZE]
    exact Nat.mod_eq_of_lt (by omega)
  have hcounts : (TileRowStore.from_rows headers rows).tile_row_counts =
      (buildTiles rows []).map List.length := by
    rw [from_rows_tile_row_counts]
    exact List.map_congr_left hmod
  refine ⟨?_, ?_, ?_⟩
  · intro i t hi hget
    rw [hcounts] at hi hget
    rw [List.length_map] at hi
    rw [List.get?_map] at hget
    rcases htile : (buildTiles rows []).get? i with _ | tile
    · rw [htile] at hget
      cases hget
    · rw [htile] at hget
      have htmem : tile ∈ buildTiles rows [] := by
        rcases List.get?_eq_some.mp htile with ⟨hlt, hgt⟩
        rw [← hgt]
        exact List.get_mem _ i hlt
      have ht : t = tile.length := (Option.some.inj hget).symm
      rw [ht]
      exact buildTiles_full_init rows [] TILE_SIZE_pos i tile hi htile
  · rw [hcounts, from_rows_nrows]
    rw [show ((buildTiles rows []).map List.length).sum =
        (buildTiles rows []).flatten.length from
      (List.length_flatten _).symm]
    rw [buildTiles_flatten, List.nil_append]
  · intro i off hget
    have hi : i < (buildTiles rows []).length := by
      have := get?_lt_length _ i off
        (by rw [from_rows_tile_offsets] at hget; exact hget)
      rwa [tileOffsetsAux_length] at this
    refine ⟨(buildTiles rows []).get ⟨i, hi⟩, ?_, ?_, ?_⟩
    · have hload := loadTile_from_rows headers rows headers.length hw
        hncols hc i hi
      rw [loadTile, hget] at hload
      exact hload
    · rw [hcounts, List.get?_map, List.get?_eq_get hi]
      rfl
    · intro r hr
      rw [from_rows_ncols]
      have hmem : (buildTiles rows []).get ⟨i, hi⟩ ∈ buildTiles rows [] :=
        List.get_mem _ i hi
      have : r ∈ (buildTiles rows []).flatten :=
        List.mem_flatten.mpr ⟨_, hmem, hr⟩
      rw [buildTiles_flatten, List.nil_append] at this
      exact hw r this

/-- Witness for C6 at a one-row, one-column store: the row-count sum is
`nrows` and the single tile at offset 20 decodes back. -/
theorem c6_tile_invariants_witness :
    (TileRowStore.from_rows ["a"] [[[97]]]).tile_row_counts.sum =
      (TileRowStore.from_rows ["a"] [[[97]]]).nrows ∧
    ∃ t, decodeTileAt (TileRowStore.from_rows ["a"] [[[97]]]).file 20 =
        some t ∧
      (TileRowStore.from_rows ["a"] [[[97]]]).tile_row_counts.get? 0 =
        some t.length ∧
      ∀ r ∈ t, r.length = (TileRowStore.from_rows ["a"] [[[97]]]).ncols := by
  have H := c6_tile_invariants ["a"] [[[97]]] (by decide) (by decide)
    (by decide)
  exact ⟨H.2.1, H.2.2 0 20 (by decide)⟩

/-- Prefetching never modifies the store: both arms of
`prefetch_for_view` return `self` as-is (`load_tile_arc` results are
discarded; nothing is inserted into the LRU). -/
theorem prefetch_for_view_fst (s : TileRowStore) (v m : Nat) :
    (s.prefetch_for_view v m).1 = s := by
  by_cases h : s.tile_offsets.length = 0 <;>
    simp [TileRowStore.prefetch_for_view, h]

set_option maxRecDepth 10000 in
/-- C7: on a three-tile store, `prefetch_for_view(1000, 10)` computes the
clamped tile range `[0, 2]` and loads those tiles, but the loads are
discarded: the store — in particular its LRU cache — is unchanged, the
cache stays empty, and a subsequent LRU consult for middle tile 1 misses
(so the next `get_rows` of tile 1 reloads from disk rather than hitting
the cache). -/
theorem c7_prefetch_does_not_warm_cache :
    (TileRowStore.from_rows []
        (List.replicate 2001 ([] : Row))).tile_offsets.length = 3 ∧
    ((TileRowStore.from_rows []
        (List.replicate 2001 ([] : Row))).prefetch_for_view 1000 10).2 =
      [0, 1, 2] ∧
    ((TileRowStore.from_rows []
        (List.replicate 2001 ([] : Row))).prefetch_for_view 1000 10).1 =
      TileRowStore.from_rows [] (List.replicate 2001 ([] : Row)) ∧
    lruGet (((TileRowStore.from_rows []
        (List.replicate 2001 ([] : Row))).prefetch_for_view
          1000 10).1).cache 1 = (none, []) := by
  have hT : (buildTiles (List.replicate 2001 ([] : Row)) []).length = 3 := by
    rw [buildTiles_length _ _ (by simp [TILE_SIZE])]
    simp [TILE_SIZE]
  have hoff : (TileRowStore.from_rows []
      (List.replicate 2001 ([] : Row))).tile_offsets.length = 3 := by
    rw [from_rows_tile_offsets, tileOffsetsAux_length, hT]
  refine ⟨hoff, ?_, prefetch_for_view_fst _ 1000 10, ?_⟩
  · simp only [TileRowStore.prefetch_for_view, hoff]
    norm_num [TILE_SIZE, USIZE_MOD]
    decide
  · rw [prefetch_for_view_fst _ 1000 10, from_rows_cache]
    rfl

/-! ## Chunk-indexing lemmas: locating a logical row inside the tiles -/

theorem sum_len_le (L : List Tile) (K : Nat)
    (h : ∀ t ∈ L, t.length ≤ K) : L.flatten.length ≤ L.length * K := by
  induction L with
  | nil => simp
  | cons t rest ih =>
      simp only [List.flatten_cons, List.length_append, List.length_cons]
      have h1 := h t (by simp)
      have h2 := ih fun x hx => h x (by simp [hx])
      rw [Nat.succ_mul]
      omega

theorem flatten_drop_of_full (L : List Tile) (i : Nat)
    (hfull : ∀ j t, j + 1 < L.length → L.get? j = some t →
      t.length = TILE_SIZE)
    (hi : i < L.length) :
    L.flatten.drop (i * TILE_SIZE) = (L.drop i).flatten := by
  induction i generalizing L with
  | zero => simp
  | succ n ihn =>
      cases L with
      | nil => simp at hi
      | cons t rest =>
          have ht : t.length = TILE_SIZE := by
            apply hfull 0 t
            · simp only [List.length_cons]
              simp only [List.length_cons] at hi
              omega
            · rfl
          have hmul : (n + 1) * TILE_SIZE = t.length + n * TILE_SIZE := by
            rw [ht, Nat.succ_mul]
            omega
          rw [List.flatten_cons, hmul, List.drop_append, List.drop_succ_cons]
          apply ihn rest
          · intro j t2 hj hget
            exact hfull (j + 1) t2 (by simp only [List.length_cons]; omega)
              (by rw [List.get?_cons_succ]; exact hget)
          · simp only [List.length_cons] at hi
            omega

theorem chunk_get_eq (L : List Tile) (i : Nat)
    (hfull : ∀ j t, j + 1 < L.length → L.get? j = some t →
      t.length = TILE_SIZE)
    (hi : i < L.length) :
    L[i] = (L.flatten.drop (i * TILE_SIZE)).take (L[i]).length := by
  rw [flatten_drop_of_full L i hfull hi, List.drop_eq_getElem_cons hi,
    List.flatten_cons, List.take_left]

theorem chunk_index_lt (L : List Tile) (curr : Nat)
    (hmem : ∀ t ∈ L, 0 < t.length ∧ t.length ≤ TILE_SIZE)
    (h : curr < L.flatten.length) :
    curr / TILE_SIZE < L.length := by
  have hle := sum_len_le L TILE_SIZE fun t ht => (hmem t ht).2
  apply Nat.div_lt_of_lt_mul
  rw [Nat.mul_comm]
  omega

theorem chunk_mod_lt (L : List Tile) (curr : Nat)
    (hfull : ∀ j t, j + 1 < L.length → L.get? j = some t →
      t.length = TILE_SIZE)
    (h : curr < L.flatten.length) (hi : curr / TILE_SIZE < L.length) :
    curr % TILE_SIZE < (L[curr / TILE_SIZE]).length := by
  by_cases hlast : curr / TILE_SIZE + 1 < L.length
  · have := hfull (curr / TILE_SIZE) (L[curr / TILE_SIZE]) hlast
      (List.get?_eq_get hi)
    rw [this]
    exact Nat.mod_lt _ TILE_SIZE_pos
  · have hdrop := flatten_drop_of_full L (curr / TILE_SIZE) hfull hi
    have hdrop1 : L.drop (curr / TILE_SIZE) = [L[curr / TILE_SIZE]] := by
      rw [List.drop_eq_getElem_cons hi]
      have : L.drop (curr / TILE_SIZE + 1) = [] :=
        List.drop_eq_nil_of_le (by omega)
      rw [this]
    have hlen : L.flatten.length - curr / TILE_SIZE * TILE_SIZE =
        (L[curr / TILE_SIZE]).length := by
      have := congrArg List.length hdrop
      rw [List.length_drop, hdrop1] at this
      simp only [List.flatten_cons, List.flatten_nil, List.append_nil] at this
      exact this
    have hmul : curr / TILE_SIZE * TILE_SIZE ≤ curr :=
      Nat.div_mul_le_self curr TILE_SIZE
    simp only [TILE_SIZE] at hlen hmul ⊢
    omega

/-! ## Pinned tiles of a freshly built store -/

theorem from_rows_first_last (headers : List String) (rows : List Row)
    (hne : buildTiles rows [] ≠ []) :
    (TileRowStore.from_rows headers rows).first_tile =
        loadTile (TileRowStore.from_rows headers rows) 0 ∧
      (TileRowStore.from_rows headers rows).last_tile =
        loadTile (TileRowStore.from_rows headers rows)
          ((tileOffsetsAux (buildTiles rows []) 20).length - 1) := by
  have hne2 : ¬(tileOffsetsAux (buildTiles rows []) 20).isEmpty = true := by
    rw [List.isEmpty_iff]
    intro hemp
    apply hne
    have hl := congrArg List.length hemp
    rw [tileOffsetsAux_length] at hl
    exact List.length_eq_zero.mp hl
  simp only [TileRowStore.from_rows]
  rw [if_neg hne2]
  exact ⟨rfl, rfl⟩

/-! ## LRU cache lemmas -/

theorem lruGet_some (cache : List (Nat × Tile)) (k : Nat) (t : Tile)
    (c2 : List (Nat × Tile)) (h : lruGet cache k = (some t, c2)) :
    (k, t) ∈ cache ∧ ∀ e ∈ c2, e ∈ cache := by
  rw [lruGet] at h
  cases hf : cache.find? (fun e => e.1 == k) with
  | none =>
      rw [hf] at h
      cases h
  | some e =>
      rw [hf] at h
      have he : e ∈ cache := List.mem_of_find?_eq_some hf
      have hk : e.1 = k := by
        have := List.find?_some hf
        exact beq_iff_eq.mp this
      have h1 : some e.2 = some t ∧ e :: cache.filter (fun e2 => e2.1 != k) = c2 :=
        Prod.mk.injEq _ _ _ _ ▸ h
      obtain ⟨h2, h3⟩ := Prod.mk.injEq _ _ _ _ ▸ h
      constructor
      · have ht : e.2 = t := Option.some.inj h2
        have : (k, t) = e := by
          rw [← hk, ← ht]
        rw [this]
        exact he
      · intro e2 he2
        rw [← h3] at he2
        rcases List.mem_cons.mp he2 with h4 | h4
        · rw [h4]; exact he
        · exact List.mem_of_mem_filter h4

theorem lruGet_none (cache : List (Nat × Tile)) (k : Nat)
    (c2 : List (Nat × Tile)) (h : lruGet cache k = (none, c2)) : c2 = cache := by
  rw [lruGet] at h
  cases hf : cache.find? (fun e => e.1 == k) with
  | none =>
      rw [hf] at h
      exact (Prod.mk.injEq _ _ _ _ ▸ h).2.symm
  | some e =>
      rw [hf] at h
      cases (Prod.mk.injEq _ _ _ _ ▸ h).1

theorem lruPut_mem (cache : List (Nat × Tile)) (k : Nat) (v : Tile)
    (e : Nat × Tile) (h : e ∈ lruPut cache k v) :
    e = (k, v) ∨ e ∈ cache := by
  rw [lruPut] at h
  have h2 := List.mem_of_mem_take h
  rcases List.mem_cons.mp h2 with h3 | h3
  · exact Or.inl h3
  · exact Or.inr (List.mem_of_mem_filter h3)

/-- Coherence of a store's resolution state with the logical tile list
`T`: the offset table covers exactly the tiles, every in-range index loads
from disk to its tile, and the pinned and cached entries agree with `T`. -/
structure StoreTiles (s : TileRowStore) (T : List Tile) : Prop where
  offsets_len : s.tile_offsets.length = T.length
  load_eq : ∀ (i : Nat) (hi : i < T.length), loadTile s i = some T[i]
  first_ok : ∀ t, s.first_tile = some t → T.get? 0 = some t
  last_ok : ∀ t, s.last_tile = some t → T.get? (T.length - 1) = some t
  cache_ok : ∀ e ∈ s.cache, T.get? e.1 = some e.2

/-- Updating only the cache of a store preserves everything `loadTile`
reads, so coherence reduces to coherence of the new cache entries. -/
theorem storeTiles_set_cache (s : TileRowStore) (T : List Tile)
    (hst : StoreTiles s T) (c : List (Nat × Tile))
    (hc : ∀ e ∈ c, T.get? e.1 = some e.2) :
    StoreTiles { s with cache := c } T :=
  ⟨hst.offsets_len, hst.load_eq, hst.first_ok, hst.last_ok, hc⟩

/-- Tile resolution on a coherent store yields the logical tile and keeps
the store coherent. -/
theorem resolveTile_spec (s : TileRowStore) (T : List Tile)
    (hst : StoreTiles s T) (i : Nat) (hi : i < T.length) :
    (resolveTile s i).1 = some T[i] ∧ StoreTiles (resolveTile s i).2 T := by
  have hgetI : T.get? i = some T[i] := List.get?_eq_get hi
  rw [resolveTile]
  by_cases h0 : i = 0
  · subst h0
    rw [if_pos rfl]
    cases hf : s.first_tile with
    | some t =>
        refine ⟨?_, hst⟩
        have := hst.first_ok t hf
        rw [hgetI] at this
        rw [Option.some.inj this]
    | none => exact ⟨hst.load_eq 0 hi, hst⟩
  · rw [if_neg h0]
    by_cases hlast : i = s.tile_offsets.length - 1
    · rw [if_pos hlast]
      cases hf : s.last_tile with
      | some t =>
          refine ⟨?_, hst⟩
          have h1 := hst.last_ok t hf
          have h2 : i = T.length - 1 := by
            rw [hlast, hst.offsets_len]
          rw [← h2, hgetI] at h1
          rw [Option.some.inj h1]
      | none => exact ⟨hst.load_eq i hi, hst⟩
    · rw [if_neg hlast]
      rcases hlru : lruGet s.cache i with ⟨ot, c2⟩
      cases ot with
      | some t =>
          obtain ⟨hmem, hsub⟩ := lruGet_some s.cache i t c2 hlru
          have h1 := hst.cache_ok (i, t) hmem
          rw [hgetI] at h1
          refine ⟨?_, ?_⟩
          · show some t = some T[i]
            rw [Option.some.inj h1]
          · show StoreTiles { s with cache := c2 } T
            exact storeTiles_set_cache s T hst c2 fun e he =>
              hst.cache_ok e (hsub e he)
      | none =>
          have hload := hst.load_eq i hi
          rw [hload]
          refine ⟨rfl, ?_⟩
          show StoreTiles { s with cache := lruPut s.cache i (T[i]) } T
          apply storeTiles_set_cache s T hst
          intro e he
          rcases lruPut_mem s.cache i (T[i]) e he with h1 | h1
          · rw [h1]
            exact hgetI
          · exact hst.cache_ok e h1

/-- A sub-slice of a chunk is the matching sub-slice of the flattened
list: if `t` equals the window of `X` at `pos` of its own length, then
dropping `m` inside `t` and taking `d ≤ t.length - m` reads
`X[pos + m, pos + m + d)`. -/
theorem slice_of_chunk (X : List Row) (t : Tile) (pos m d : Nat)
    (ht : t = (X.drop pos).take t.length)
    (hd : d ≤ t.length - m) :
    (t.drop m).take d = (X.drop (pos + m)).take d := by
  conv_lhs => rw [ht]
  rw [List.drop_take, List.drop_drop, List.take_take]
  congr 1
  omega

/-- The copy loop of `get_rows` on a coherent store returns exactly the
logical row window `[curr, stop)`, appended to the accumulator, given
enough fuel. -/
theorem getRowsLoop_spec (T : List Tile)
    (hfull : ∀ j t, j + 1 < T.length → T.get? j = some t →
      t.length = TILE_SIZE)
    (hmem : ∀ t ∈ T, 0 < t.length ∧ t.length ≤ TILE_SIZE) :
    ∀ (fuel curr stop : Nat) (s : TileRowStore) (acc : List Row),
      StoreTiles s T → curr ≤ stop → stop ≤ T.flatten.length →
      stop - curr < fuel →
      ∃ s2, getRowsLoop fuel curr stop s acc =
        some (acc ++ (T.flatten.drop curr).take (stop - curr), s2) := by
  intro fuel
  induction fuel with
  | zero =>
      intro curr stop s acc _ h1 h2 h3
      omega
  | succ n ih =>
      intro curr stop s acc hst hcs hsf hfu
      rw [getRowsLoop]
      by_cases hlt : curr < stop
      · rw [if_pos hlt]
        have hcf : curr < T.flatten.length := by omega
        have hidx : curr / TILE_SIZE < T.length :=
          chunk_index_lt T curr hmem hcf
        obtain ⟨hres, hst2⟩ := resolveTile_spec s T hst (curr / TILE_SIZE) hidx
        have hpair : resolveTile s (curr / TILE_SIZE) =
            (some (T[curr / TILE_SIZE]),
              (resolveTile s (curr / TILE_SIZE)).2) := by
          rw [← hres]
        rw [hpair]
        have hmod : curr % TILE_SIZE < (T[curr / TILE_SIZE]).length :=
          chunk_mod_lt T curr hfull hcf hidx
        show ∃ s2, getRowsLoop n
            (curr + (min (T[curr / TILE_SIZE]).length
              (curr % TILE_SIZE + (stop - curr)) - curr % TILE_SIZE))
            stop (resolveTile s (curr / TILE_SIZE)).2
            (acc ++ ((T[curr / TILE_SIZE]).drop (curr % TILE_SIZE)).take
              (min (T[curr / TILE_SIZE]).length
                (curr % TILE_SIZE + (stop - curr)) - curr % TILE_SIZE)) =
          some (acc ++ (T.flatten.drop curr).take (stop - curr), s2)
        generalize hδeq : min (T[curr / TILE_SIZE]).length
          (curr % TILE_SIZE + (stop - curr)) - curr % TILE_SIZE = d
        have hsl := slice_of_chunk T.flatten (T[curr / TILE_SIZE])
          (curr / TILE_SIZE * TILE_SIZE) (curr % TILE_SIZE) d
          (chunk_get_eq T (curr / TILE_SIZE) hfull hidx) (by omega)
        rw [Nat.div_add_mod' curr TILE_SIZE] at hsl
        rw [hsl]
        obtain ⟨s2, hrec⟩ := ih (curr + d) stop
          (resolveTile s (curr / TILE_SIZE)).2
          (acc ++ (T.flatten.drop curr).take d)
          hst2 (by omega) hsf (by omega)
        refine ⟨s2, ?_⟩
        rw [hrec]
        congr 2
        rw [List.append_assoc]
        congr 1
        rw [show stop - curr = d + (stop - (curr + d)) from by omega,
          List.take_add]
        congr 2
        rw [List.drop_drop]
      · rw [if_neg hlt]
        have hz : stop - curr = 0 := by omega
        refine ⟨s, ?_⟩
        rw [hz]
        simp

/-- C5: on a store built from a uniform-width stream of `N` rows,
`get_rows(start, count)` returns exactly the input rows
`start .. min(N, start + count)` in stream order — in particular the
empty list whenever `start ≥ N` or `count = 0`. -/
theorem c5_get_rows_window (headers : List String) (rows : List Row)
    (w : Nat) (hw : ∀ r ∈ rows, r.length = w) (hwlt : w < 2 ^ 32)
    (hc : ∀ r ∈ rows, ∀ c ∈ r, c.length < 2 ^ 32) (start count : Nat) :
    (∃ s2, (TileRowStore.from_rows headers rows).get_rows start count =
        some ((rows.take (min rows.length (start + count))).drop start,
          s2)) ∧
    (start ≥ rows.length ∨ count = 0 →
      (rows.take (min rows.length (start + count))).drop start = []) := by
  have hempty : start ≥ rows.length ∨ count = 0 →
      (rows.take (min rows.length (start + count))).drop start = [] := by
    intro h
    apply List.drop_eq_nil_of_le
    rw [List.length_take]
    rcases h with h | h
    · omega
    · subst h
      omega
  refine ⟨?_, hempty⟩
  rw [TileRowStore.get_rows, from_rows_nrows]
  by_cases hcond : start ≥ rows.length ∨ count = 0
  · have hb : (decide (start ≥ rows.length) || decide (count = 0)) = true := by
      rcases hcond with h | h <;> simp [h]
    rw [if_pos hb]
    exact ⟨TileRowStore.from_rows headers rows, by rw [hempty hcond]⟩
  · push_neg at hcond
    obtain ⟨hstart, hcount⟩ := hcond
    have hb : (decide (start ≥ rows.length) || decide (count = 0)) = false := by
      simp only [Bool.or_eq_false_iff, decide_eq_false_iff_not]
      exact ⟨by omega, hcount⟩
    rw [hb]
    rw [if_neg (by simp)]
    have hfull := buildTiles_full_init rows [] TILE_SIZE_pos
    have hmem := buildTiles_mem rows [] TILE_SIZE_pos
    have hflat : (buildTiles rows []).flatten = rows := by
      rw [buildTiles_flatten, List.nil_append]
    have hTne : buildTiles rows [] ≠ [] := by
      intro hnil
      rw [hnil] at hflat
      have : rows.length = 0 := by rw [← hflat]; rfl
      omega
    have hTpos : 0 < (buildTiles rows []).length := List.length_pos.mpr hTne
    have hload : ∀ (i : Nat) (hi : i < (buildTiles rows []).length),
        loadTile (TileRowStore.from_rows headers rows) i =
          some (buildTiles rows [])[i] := by
      intro i hi
      rw [loadTile_from_rows headers rows w hw hwlt hc i hi,
        List.get_eq_getElem]
    obtain ⟨hf1, hf2⟩ := from_rows_first_last headers rows hTne
    rw [tileOffsetsAux_length] at hf2
    have hst : StoreTiles (TileRowStore.from_rows headers rows)
        (buildTiles rows []) := by
      refine ⟨?_, hload, ?_, ?_, ?_⟩
      · rw [from_rows_tile_offsets, tileOffsetsAux_length]
      · intro t ht
        rw [hf1, hload 0 hTpos] at ht
        rw [List.get?_eq_get hTpos, List.get_eq_getElem]
        exact ht
      · intro t ht
        have hl : (buildTiles rows []).length - 1 <
            (buildTiles rows []).length := by omega
        rw [hf2, hload _ hl] at ht
        rw [List.get?_eq_get hl, List.get_eq_getElem]
        exact ht
      · intro e he
        rw [from_rows_cache] at he
        cases he
    obtain ⟨s2, hrun⟩ := getRowsLoop_spec (buildTiles rows []) hfull hmem
      (min rows.length (start + count) - start + 1) start
      (min rows.length (start + count))
      (TileRowStore.from_rows headers rows) [] hst
      (by omega) (by rw [hflat]; omega) (by omega)
    refine ⟨s2, ?_⟩
    show getRowsLoop (min rows.length (start + count) - start + 1) start
        (min rows.length (start + count))
        (TileRowStore.from_rows headers rows) [] = _
    rw [hrun, hflat, List.nil_append, List.drop_take]

/-- Witness for C5 at a one-row store: the full window comes back, and a
window starting at `nrows` is empty. -/
theorem c5_get_rows_window_witness :
    (∃ s2, (TileRowStore.from_rows ["a"] [[[97]]]).get_rows 0 1 =
        some ([[[97]]], s2)) ∧
    ∃ s2, (TileRowStore.from_rows ["a"] [[[97]]]).get_rows 1 5 =
        some ([], s2) := by
  have H1 := (c5_get_rows_window ["a"] [[[97]]] 1 (by decide) (by decide)
    (by decide) 0 1).1
  have H2 := c5_get_rows_window ["a"] [[[97]]] 1 (by decide) (by decide)
    (by decide) 1 5
  constructor
  · obtain ⟨s2, h⟩ := H1
    refine ⟨s2, ?_⟩
    rw [h]
    rfl
  · obtain ⟨s2, h⟩ := H2.1
    have hemp := H2.2 (Or.inl (by decide))
    refine ⟨s2, ?_⟩
    rw [h, hemp]

/-! ## Rope-backed editor buffer (src/editor.rs)

The rope is a character list.  The source indexes the rope by byte
offsets; the model uses element indices, which agree with byte offsets on
single-byte characters (the source itself mixes ropey's byte- and
char-indexed APIs, so the coincident case is the meaningful one).
`Instant` timestamps are milliseconds as `Nat`, passed in as explicit
inputs where the source calls `Instant::now()`.  Presentation-only fields
(preferred column, viewport, visual-line cache, word wrap) are not part of
the model; no claim mentions them.  Stacks grow at the list head
(`Vec::push`/`pop` operate at the end of the vector). -/

/-- `EditOp` (src/editor.rs lines 26-30). -/
inductive EditOp where
  | insert (pos : Nat) (text : List Char)
  | delete (pos : Nat) (text : List Char)
  deriving DecidableEq, Repr

/-- `UndoGroup` (src/editor.rs lines 32-35): ops paired with the caret and
anchor captured at recording time, plus a timestamp. -/
structure UndoGroup where
  ops : List (EditOp × Nat × Nat)
  timestamp : Nat
  deriving DecidableEq, Repr

/-- `Editor` (src/editor.rs lines 37-54), restricted to the fields the
claims touch. -/
structure Editor where
  rope : List Char
  caret : Nat
  selection_anchor : Option Nat
  modified : Bool
  undo_stack : List UndoGroup
  redo_stack : List UndoGroup
  current_group : Option UndoGroup
  last_edit_time : Option Nat
  deriving DecidableEq, Repr

/-- `Rope::insert` at an element position. -/
def ropeInsert (rope : List Char) (pos : Nat) (text : List Char) :
    List Char :=
  rope.take pos ++ text ++ rope.drop pos

/-- `Rope::remove(start..stop)`. -/
def ropeRemove (rope : List Char) (start stop : Nat) : List Char :=
  rope.take start ++ rope.drop stop

/-- `Editor::new` (src/editor.rs lines 57-80): constructing an editor
`unwrap`s clipboard initialization — a failure panics (modelled as
`Except.error`) with the source's panic message; on success every field
starts empty. -/
def Editor.new (clipboard_init : Except String Unit) :
    Except String Editor :=
  match clipboard_init with
  | .error _ => .error "Failed to initialize clipboard"
  | .ok _ =>
      .ok { rope := [], caret := 0, selection_anchor := none,
            modified := false, undo_stack := [], redo_stack := [],
            current_group := none, last_edit_time := none }

/-- `Editor::finalize_undo_group` (src/editor.rs lines 494-500): take the
in-progress group and push it onto the undo stack when non-empty. -/
def finalize_undo_group (e : Editor) : Editor :=
  match e.current_group with
  | some g =>
      if g.ops.isEmpty then { e with current_group := none }
      else { e with current_group := none, undo_stack := g :: e.undo_stack }
  | none => e

/-- `Editor::add_edit_op` (src/editor.rs lines 472-492): a new group
starts when more than 1000 ms have passed since the last edit (or there
was no previous edit); otherwise the op is appended to the current group
— and silently dropped when no group is in progress.  Every call updates
the last-edit time and clears the redo stack. -/
def add_edit_op (e : Editor) (op : EditOp) (now : Nat) : Editor :=
  let should_start_new_group : Bool :=
    match e.last_edit_time with
    | some last => now - last > 1000
    | none => true
  let e2 :=
    if should_start_new_group then
      let e1 := finalize_undo_group e
      { e1 with
        current_group :=
          some ⟨[(op, e.caret, e.selection_anchor.getD e.caret)], now⟩ }
    else
      match e.current_group with
      | some g =>
          { e with
            current_group :=
              some ⟨g.ops ++ [(op, e.caret, e.selection_anchor.getD e.caret)],
                g.timestamp⟩ }
      | none => e
  { e2 with last_edit_time := some now, redo_stack := [] }

/-- `Editor::delete_selection` (src/editor.rs lines 301-317). -/
def delete_selection (e : Editor) (now : Nat) : Editor :=
  match e.selection_anchor with
  | some anchor =>
      let start := min anchor e.caret
      let stop := max anchor e.caret
      let text := (e.rope.take stop).drop start
      let e2 := add_edit_op e (.delete start text) now
      { e2 with
        rope := ropeRemove e2.rope start stop
        caret := start
        selection_anchor := none
        modified := true }
  | none => e

/-- `Editor::insert_char` (src/editor.rs lines 254-266). -/
def insert_char (e : Editor) (ch : Char) (now : Nat) : Editor :=
  let e1 := delete_selection e now
  let text := [ch]
  let e2 := add_edit_op e1 (.insert e1.caret text) now
  { e2 with
    rope := ropeInsert e2.rope e2.caret text
    caret := e2.caret + text.length
    modified := true
    selection_anchor := none }

/-- `Editor::delete_char_before` (src/editor.rs lines 268-283); the
previous character boundary is the previous element index. -/
def delete_char_before (e : Editor) (now : Nat) : Editor :=
  if e.selection_anchor.isSome then delete_selection e now
  else if 0 < e.caret then
    let prev := e.caret - 1
    let text := (e.rope.take e.caret).drop prev
    let e2 := add_edit_op e (.delete prev text) now
    { e2 with
      rope := ropeRemove e2.rope prev e2.caret
      caret := prev
      modified := true }
  else e

/-- The loop body of `Editor::undo` (src/editor.rs lines 434-445),
inverting one recorded op. -/
def undoStep (acc : Editor) (entry : EditOp × Nat × Nat) : Editor :=
  match entry.1 with
  | .insert pos text =>
      { acc with
        rope := ropeRemove acc.rope pos (pos + text.length)
        caret := pos }
  | .delete pos text =>
      { acc with
        rope := ropeInsert acc.rope pos text
        caret := pos + text.length }

/-- The loop body of `Editor::redo` (src/editor.rs lines 454-465),
reapplying one recorded op. -/
def redoStep (acc : Editor) (entry : EditOp × Nat × Nat) : Editor :=
  match entry.1 with
  | .insert pos text =>
      { acc with
        rope := ropeInsert acc.rope pos text
        caret := pos + text.length }
  | .delete pos text =>
      { acc with
        rope := ropeRemove acc.rope pos (pos + text.length)
        caret := pos }

/-- `Editor::undo` (src/editor.rs lines 431-450): finalize the
in-progress group, pop one group, invert its ops in reverse order, move
the group to the redo stack and clear the anchor.  The modified flag is
not touched. -/
def undo (e : Editor) : Editor :=
  let e1 := finalize_undo_group e
  match e1.undo_stack with
  | [] => e1
  | g :: rest =>
      let e2 := g.ops.reverse.foldl undoStep e1
      { e2 with
        undo_stack := rest
        redo_stack := g :: e2.redo_stack
        selection_anchor := none }

/-- `Editor::redo` (src/editor.rs lines 452-470): pop one group from the
redo stack, reapply its ops in forward order, move it back to the undo
stack and clear the anchor. -/
def redo (e : Editor) : Editor :=
  match e.redo_stack with
  | [] => e
  | g :: rest =>
      let e2 := g.ops.foldl redoStep e
      { e2 with
        redo_stack := rest
        undo_stack := g :: e2.undo_stack
        selection_anchor := none }

/-- `Editor::paste` (src/editor.rs lines 417-429): a clipboard read
failure is a silent no-op; on success the pasted text replaces the
selection and is recorded as one insert op. -/
def paste (e : Editor) (clip : Except String (List Char)) (now : Nat) :
    Editor :=
  match clip with
  | .ok text =>
      let e1 := delete_selection e now
      let e2 := add_edit_op e1 (.insert e1.caret text) now
      { e2 with
        rope := ropeInsert e2.rope e2.caret text
        caret := e2.caret + text.length
        modified := true }
  | .error _ => e

/-- `Editor::copy` (src/editor.rs lines 398-408): the editor state is
never changed; the selected slice (if any) is handed to the clipboard,
whose write result is discarded. -/
def copy (e : Editor) : Editor × Option (List Char) :=
  match e.selection_anchor with
  | some anchor =>
      (e, some ((e.rope.take (max anchor e.caret)).drop
        (min anchor e.caret)))
  | none => (e, none)

/-! ## Undo/redo algebra -/

/-- The rope effect of inverting one op (the `undo` loop body). -/
def applyInv (op : EditOp) (rope : List Char) : List Char :=
  match op with
  | .insert pos text => ropeRemove rope pos (pos + text.length)
  | .delete pos text => ropeInsert rope pos text

/-- The rope effect of reapplying one op (the `redo` loop body). -/
def applyFwd (op : EditOp) (rope : List Char) : List Char :=
  match op with
  | .insert pos text => ropeInsert rope pos text
  | .delete pos text => ropeRemove rope pos (pos + text.length)

/-- The rope after inverting a group's ops in reverse order. -/
def ropeAfterInv (ops : List (EditOp × Nat × Nat)) (rope : List Char) :
    List Char :=
  ops.foldr (fun entry r => applyInv entry.1 r) rope

/-- The rope after reapplying a group's ops in forward order. -/
def ropeAfterFwd (ops : List (EditOp × Nat × Nat)) (rope : List Char) :
    List Char :=
  ops.foldl (fun r entry => applyFwd entry.1 r) rope

/-- The caret position the `redo` loop leaves after one op (the natural
post-op position: after the inserted text, or at the deletion point). -/
def fwdCaret (op : EditOp) : Nat :=
  match op with
  | .insert pos text => pos + text.length
  | .delete pos _ => pos

/-- An op inverts cleanly on a rope: an insert's recorded text is
actually present at its position, a delete's position is in range.  Ops
recorded by the editor against the rope they acted on satisfy this. -/
def opCoherent (op : EditOp) (rope : List Char) : Prop :=
  match op with
  | .insert pos text =>
      pos + text.length ≤ rope.length ∧
        (rope.drop pos).take text.length = text
  | .delete pos _ => pos ≤ rope.length

/-- All ops of a group invert cleanly, each against the rope produced by
inverting the ops after it. -/
def opsCoherent : List (EditOp × Nat × Nat) → List Char → Prop
  | [], _ => True
  | entry :: rest, rope =>
      opsCoherent rest rope ∧ opCoherent entry.1 (ropeAfterInv rest rope)

theorem inv_fwd_cancel (op : EditOp) (rope : List Char)
    (h : opCoherent op rope) : applyFwd op (applyInv op rope) = rope := by
  cases op with
  | insert pos text =>
      obtain ⟨h1, h2⟩ := h
      have hlp : (rope.take pos).length = pos := by
        rw [List.length_take]
        omega
      show (ropeRemove rope pos (pos + text.length)).take pos ++ text ++
          (ropeRemove rope pos (pos + text.length)).drop pos = rope
      rw [ropeRemove]
      rw [show (rope.take pos ++ rope.drop (pos + text.length)).take pos =
          (rope.take pos ++ rope.drop (pos + text.length)).take
            (rope.take pos).length from by rw [hlp]]
      rw [List.take_left]
      rw [show (rope.take pos ++ rope.drop (pos + text.length)).drop pos =
          (rope.take pos ++ rope.drop (pos + text.length)).drop
            (rope.take pos).length from by rw [hlp]]
      rw [List.drop_left]
      conv_rhs => rw [← List.take_append_drop pos rope]
      rw [List.append_assoc]
      congr 1
      conv_rhs => rw [← List.take_append_drop text.length (rope.drop pos)]
      rw [h2, List.drop_drop]
  | delete pos text =>
      have hple : pos ≤ rope.length := h
      have hlp : (rope.take pos).length = pos := by
        rw [List.length_take]
        omega
      show (ropeInsert rope pos text).take pos ++
          (ropeInsert rope pos text).drop (pos + text.length) = rope
      rw [ropeInsert]
      rw [show (rope.take pos ++ text ++ rope.drop pos).take pos =
          (rope.take pos ++ (text ++ rope.drop pos)).take
            (rope.take pos).length from by rw [hlp, List.append_assoc]]
      rw [List.take_left]
      rw [show (rope.take pos ++ text ++ rope.drop pos).drop
            (pos + text.length) =
          ((rope.take pos ++ text) ++ rope.drop pos).drop
            (rope.take pos ++ text).length from by
        rw [List.length_append, hlp]]
      rw [List.drop_left]
      exact List.take_append_drop pos rope

theorem fwd_inv_cancel_all (ops : List (EditOp × Nat × Nat))
    (rope : List Char) (h : opsCoherent ops rope) :
    ropeAfterFwd ops (ropeAfterInv ops rope) = rope := by
  induction ops with
  | nil => rfl
  | cons x l ih =>
      obtain ⟨h1, h2⟩ := h
      show ropeAfterFwd l
        (applyFwd x.1 (applyInv x.1 (ropeAfterInv l rope))) = rope
      rw [inv_fwd_cancel x.1 _ h2]
      exact ih h1

theorem undoStep_proj (e : Editor) (x : EditOp × Nat × Nat) :
    (undoStep e x).rope = applyInv x.1 e.rope ∧
    (undoStep e x).undo_stack = e.undo_stack ∧
    (undoStep e x).redo_stack = e.redo_stack ∧
    (undoStep e x).modified = e.modified ∧
    (undoStep e x).selection_anchor = e.selection_anchor := by
  rcases x with ⟨op, a, b⟩
  cases op <;> exact ⟨rfl, rfl, rfl, rfl, rfl⟩

theorem redoStep_proj (e : Editor) (x : EditOp × Nat × Nat) :
    (redoStep e x).rope = applyFwd x.1 e.rope ∧
    (redoStep e x).caret = fwdCaret x.1 ∧
    (redoStep e x).undo_stack = e.undo_stack ∧
    (redoStep e x).redo_stack = e.redo_stack ∧
    (redoStep e x).modified = e.modified := by
  rcases x with ⟨op, a, b⟩
  cases op <;> exact ⟨rfl, rfl, rfl, rfl, rfl⟩

theorem foldl_undoStep_proj (ops : List (EditOp × Nat × Nat)) (e : Editor) :
    (ops.reverse.foldl undoStep e).rope = ropeAfterInv ops e.rope ∧
    (ops.reverse.foldl undoStep e).undo_stack = e.undo_stack ∧
    (ops.reverse.foldl undoStep e).redo_stack = e.redo_stack ∧
    (ops.reverse.foldl undoStep e).modified = e.modified := by
  rw [List.foldl_reverse]
  induction ops with
  | nil => exact ⟨rfl, rfl, rfl, rfl⟩
  | cons x l ih =>
      rw [List.foldr_cons]
      obtain ⟨i1, i2, i3, i4⟩ := ih
      obtain ⟨s1, s2, s3, s4, _⟩ :=
        undoStep_proj (l.foldr (fun x y => undoStep y x) e) x
      refine ⟨?_, ?_, ?_, ?_⟩
      · rw [s1, i1]
        rfl
      · rw [s2, i2]
      · rw [s3, i3]
      · rw [s4, i4]

theorem foldl_redoStep_proj (ops : List (EditOp × Nat × Nat)) (e : Editor) :
    (ops.foldl redoStep e).rope = ropeAfterFwd ops e.rope ∧
    (ops.foldl redoStep e).caret =
      (match ops.getLast? with
        | some x => fwdCaret x.1
        | none => e.caret) ∧
    (ops.foldl redoStep e).undo_stack = e.undo_stack ∧
    (ops.foldl redoStep e).redo_stack = e.redo_stack ∧
    (ops.foldl redoStep e).modified = e.modified := by
  induction ops generalizing e with
  | nil => exact ⟨rfl, rfl, rfl, rfl, rfl⟩
  | cons x l ih =>
      rw [List.foldl_cons]
      obtain ⟨i1, i2, i3, i4, i5⟩ := ih (redoStep e x)
      obtain ⟨s1, s2, s3, s4, s5⟩ := redoStep_proj e x
      refine ⟨?_, ?_, ?_, ?_, ?_⟩
      · rw [i1, s1]
        rfl
      · rw [i2]
        cases l with
        | nil => rw [s2]; rfl
        | cons y m => rw [List.getLast?_cons_cons]; rfl
      · rw [i3, s3]
      · rw [i4, s4]
      · rw [i5, s5]

theorem finalize_proj (e : Editor) :
    (finalize_undo_group e).rope = e.rope ∧
    (finalize_undo_group e).caret = e.caret ∧
    (finalize_undo_group e).redo_stack = e.redo_stack ∧
    (finalize_undo_group e).modified = e.modified := by
  rw [finalize_undo_group]
  cases e.current_group with
  | none => exact ⟨rfl, rfl, rfl, rfl⟩
  | some g =>
      dsimp only
      split <;> exact ⟨rfl, rfl, rfl, rfl⟩

/-! ## Theorems for the editor claims -/

/-- C4: an edit made within 1000 ms of the previous edit while no undo
group is in progress is recorded in no group at all.  Starting from a
fresh editor: insert `a` at t=0 (group started), `undo` at once
(finalizes and pops the group), insert `b` at t=500 — `add_edit_op` sees
`now - last ≤ 1000` so it does not start a new group, but `current_group`
is `None` so the append arm does nothing: the rope becomes `"b"` yet the
undo stack, redo stack and in-progress group are all empty, contradicting
the claim that such an edit starts a new group and that every edit is
recorded in some undo group. -/
theorem c4_edit_dropped_from_undo_history :
    (insert_char (undo (insert_char
      ⟨[], 0, none, false, [], [], none, none⟩ 'a' 0)) 'b' 500).rope =
        ['b'] ∧
    (insert_char (undo (insert_char
      ⟨[], 0, none, false, [], [], none, none⟩ 'a' 0)) 'b'
        500).current_group = none ∧
    (insert_char (undo (insert_char
      ⟨[], 0, none, false, [], [], none, none⟩ 'a' 0)) 'b'
        500).undo_stack = [] ∧
    (insert_char (undo (insert_char
      ⟨[], 0, none, false, [], [], none, none⟩ 'a' 0)) 'b'
        500).redo_stack = [] := by
  decide

/-- C8 counterexample: with the caret moved away from the last edit
(rope `"ab"`, caret 0, one recorded group inserting `b` at 1), `undo`
then `redo` restores the rope but lands the caret at 2, not at its
pre-undo value 0. -/
theorem c8_undo_redo_moves_caret :
    (redo (undo (⟨['a', 'b'], 0, none, true,
        [⟨[(.insert 1 ['b'], 1, 1)], 0⟩], [], none, none⟩ : Editor))).caret ≠
      (⟨['a', 'b'], 0, none, true,
        [⟨[(.insert 1 ['b'], 1, 1)], 0⟩], [], none, none⟩ : Editor).caret ∧
    (redo (undo (⟨['a', 'b'], 0, none, true,
        [⟨[(.insert 1 ['b'], 1, 1)], 0⟩], [], none, none⟩ : Editor))).rope =
      ['a', 'b'] := by
  decide

/-- C8 amended: on a state whose popped group inverts cleanly against the
rope, `undo` followed by `redo` restores the rope, the modified flag and
both stacks, but sets the caret to the natural post-op position of the
group's last op — not necessarily its pre-undo value. -/
theorem c8_amended_undo_redo (e : Editor) (g : UndoGroup)
    (rest : List UndoGroup)
    (hpop : (finalize_undo_group e).undo_stack = g :: rest)
    (hne : g.ops ≠ [])
    (hcoh : opsCoherent g.ops e.rope) :
    (redo (undo e)).rope = e.rope ∧
    (redo (undo e)).modified = e.modified ∧
    (redo (undo e)).undo_stack = g :: rest ∧
    (redo (undo e)).redo_stack = e.redo_stack ∧
    ∃ x, g.ops.getLast? = some x ∧
      (redo (undo e)).caret = fwdCaret x.1 := by
  obtain ⟨f1, _, f3, f4⟩ := finalize_proj e
  have hundo : undo e =
      { (g.ops.reverse.foldl undoStep (finalize_undo_group e)) with
        undo_stack := rest
        redo_stack := g :: (g.ops.reverse.foldl undoStep
          (finalize_undo_group e)).redo_stack
        selection_anchor := none } := by
    rw [undo, hpop]
  obtain ⟨u1, _, u3, u4⟩ :=
    foldl_undoStep_proj g.ops (finalize_undo_group e)
  have hredostack : (undo e).redo_stack = g :: e.redo_stack := by
    rw [hundo]
    show g :: (g.ops.reverse.foldl undoStep
      (finalize_undo_group e)).redo_stack = g :: e.redo_stack
    rw [u3, f3]
  have hredo : redo (undo e) =
      { (g.ops.foldl redoStep (undo e)) with
        redo_stack := e.redo_stack
        undo_stack := g :: (g.ops.foldl redoStep (undo e)).undo_stack
        selection_anchor := none } := by
    rw [redo, hredostack]
  obtain ⟨r1, r2, r3, r4, r5⟩ := foldl_redoStep_proj g.ops (undo e)
  have hurope : (undo e).rope = ropeAfterInv g.ops e.rope := by
    rw [hundo]
    show (g.ops.reverse.foldl undoStep (finalize_undo_group e)).rope =
      ropeAfterInv g.ops e.rope
    rw [u1, f1]
  have humod : (undo e).modified = e.modified := by
    rw [hundo]
    show (g.ops.reverse.foldl undoStep (finalize_undo_group e)).modified =
      e.modified
    rw [u4, f4]
  have hustack : (undo e).undo_stack = rest := by
    rw [hundo]
  obtain ⟨x, hx⟩ : ∃ x, g.ops.getLast? = some x := by
    cases hg : g.ops.getLast? with
    | none =>
        rw [List.getLast?_eq_none_iff] at hg
        exact absurd hg hne
    | some x => exact ⟨x, rfl⟩
  refine ⟨?_, ?_, ?_, ?_, x, hx, ?_⟩
  · rw [hredo]
    show (g.ops.foldl redoStep (undo e)).rope = e.rope
    rw [r1, hurope]
    exact fwd_inv_cancel_all g.ops e.rope hcoh
  · rw [hredo]
    show (g.ops.foldl redoStep (undo e)).modified = e.modified
    rw [r5, humod]
  · rw [hredo]
    show g :: (g.ops.foldl redoStep (undo e)).undo_stack = g :: rest
    rw [r3, hustack]
  · rw [hredo]
  · rw [hredo]
    show (g.ops.foldl redoStep (undo e)).caret = fwdCaret x.1
    rw [r2, hx]

/-- Witness for the amended C8 at the counterexample state: the rope and
modified flag come back and the caret lands at the post-op position 2. -/
theorem c8_amended_undo_redo_witness :
    (redo (undo (⟨['a', 'b'], 0, none, true,
        [⟨[(.insert 1 ['b'], 1, 1)], 0⟩], [], none, none⟩ : Editor))).rope =
      ['a', 'b'] ∧
    (redo (undo (⟨['a', 'b'], 0, none, true,
        [⟨[(.insert 1 ['b'], 1, 1)], 0⟩], [], none,
          none⟩ : Editor))).modified = true ∧
    (redo (undo (⟨['a', 'b'], 0, none, true,
        [⟨[(.insert 1 ['b'], 1, 1)], 0⟩], [], none, none⟩ : Editor))).caret =
      2 := by
  have H := c8_amended_undo_redo
    (⟨['a', 'b'], 0, none, true,
      [⟨[(.insert 1 ['b'], 1, 1)], 0⟩], [], none, none⟩ : Editor)
    ⟨[(.insert 1 ['b'], 1, 1)], 0⟩ [] rfl (by decide)
    ⟨trivial, by decide, by decide⟩
  obtain ⟨h1, h2, _, _, x, hx1, hx2⟩ := H
  have hxv : x = (.insert 1 ['b'], 1, 1) := by
    have : ([((EditOp.insert 1 ['b'] : EditOp), 1, 1)].getLast?) =
        some (.insert 1 ['b'], 1, 1) := rfl
    rw [this] at hx1
    exact (Option.some.inj hx1).symm
  refine ⟨h1, h2, ?_⟩
  rw [hx2, hxv]
  rfl

/-- C10: `Editor::new` fails (panics) exactly when clipboard
initialization fails, with the source's panic message; once constructed,
clipboard failures are silent no-ops: `paste` with a failing clipboard
read leaves the editor unchanged, and `copy` never changes the editor. -/
theorem c10_new_requires_clipboard :
    (∀ err : String, Editor.new (.error err) =
      .error "Failed to initialize clipboard") ∧
    (Editor.new (.ok ())).isOk = true ∧
    (∀ (e : Editor) (err : String) (now : Nat),
      paste e (.error err) now = e) ∧
    (∀ e : Editor, (copy e).1 = e) := by
  refine ⟨fun _ => rfl, rfl, fun _ _ _ => rfl, fun e => ?_⟩
  rw [copy]
  cases e.selection_anchor <;> rfl

end Frost
